import Mathlib

/-!
Verification development for the pdf-detector repository.

Text is modelled as lists of Unicode codepoints (`List Nat`).  Pure Python
functions of the detection engine are translated into executable Lean
definitions; loops that consume at least one character per iteration are
written with an explicit fuel argument bounded by the input length, so that
every definition is a structural recursion the kernel can evaluate.
MD5-8 fingerprints are modelled as the fingerprinted key part itself
(a collision-free model of `hashlib.md5(key.encode()).hexdigest()[:8]`);
the code only ever compares these fingerprints for equality.
-/

namespace PdfDetect

/-- Codepoints of a string literal, for concrete test inputs. -/
def cps (s : String) : List Nat := s.toList.map Char.toNat

/-! ## Character classes (`document_processor.SymbolCleaner`) -/

/-- Source `SymbolCleaner.is_chinese`: U+4E00 .. U+9FFF. -/
def isChinese (c : Nat) : Bool := 0x4e00 ≤ c && c ≤ 0x9fff

/-- Lower-case ASCII letter a .. z. -/
def isEnglishLower (c : Nat) : Bool := 97 ≤ c && c ≤ 122

/-- Upper-case ASCII letter A .. Z. -/
def isEnglishUpper (c : Nat) : Bool := 65 ≤ c && c ≤ 90

/-- Source `SymbolCleaner.is_english`: ASCII letter of either case. -/
def isEnglish (c : Nat) : Bool := isEnglishLower c || isEnglishUpper c

/-- Source `SymbolCleaner.is_digit`: ASCII digit 0 .. 9. -/
def isDigit (c : Nat) : Bool := 48 ≤ c && c ≤ 57

/-- Source `SymbolCleaner.is_valid_char`: Chinese, English letter or digit. -/
def isValidChar (c : Nat) : Bool := isChinese c || isEnglish c || isDigit c

/-- Python `str.lower()` restricted to what the cleaner feeds it:
ASCII upper-case letters are shifted by 32, everything else kept. -/
def lowerChar (c : Nat) : Nat := if isEnglishUpper c then c + 32 else c

/-- Python `str.isspace()` on a single character (the Unicode whitespace
set used by CPython). -/
def pySpace (c : Nat) : Bool :=
  c = 32 || c = 9 || c = 10 || c = 11 || c = 12 || c = 13 ||
  c = 28 || c = 29 || c = 30 || c = 31 || c = 133 || c = 160 ||
  c = 0x1680 || (0x2000 ≤ c && c ≤ 0x200a) || c = 0x2028 || c = 0x2029 ||
  c = 0x202f || c = 0x205f || c = 0x3000

/-! ## Generic list scanning helpers -/

/-- Split a list into the maximal leading run satisfying `p` and the rest
(the `while i < n and p(text[i]): i += 1` idiom). -/
def spanP (p : Nat → Bool) : List Nat → List Nat × List Nat
  | [] => ([], [])
  | c :: cs =>
    if p c then
      let r := spanP p cs
      (c :: r.1, r.2)
    else ([], c :: cs)

/-! ## `SymbolCleaner.clean_text` -/

/-- The `while i < n and text[i] == '.':` loop of the digit branch:
repeatedly swallow a decimal point and collect the digits after it.
Returns the collected digits and the unconsumed rest.  Fuel bounds the
number of iterations (each consumes at least the dot). -/
def dotDigits : Nat → List Nat → List Nat × List Nat
  | 0, l => ([], l)
  | _ + 1, [] => ([], [])
  | fuel + 1, c :: cs =>
    if c = 46 then
      let d := spanP isDigit cs
      let r := dotDigits fuel d.2
      (d.1 ++ r.1, r.2)
    else ([], c :: cs)

/-- The look-ahead of `clean_text`: after skipping whitespace, is the next
character an English letter or a digit? -/
def nextEngDigit : List Nat → Bool
  | [] => false
  | c :: _ => isEnglish c || isDigit c

/-- Main scan of `SymbolCleaner.clean_text` (one iteration of the outer
`while i < n` loop per fuel unit; every iteration consumes at least one
input character, so fuel = input length is always sufficient). -/
def cleanTextGo : Nat → List Nat → List Nat
  | 0, _ => []
  | _, [] => []
  | fuel + 1, c :: cs =>
    if isEnglish c then
      let s := spanP isEnglish (c :: cs)
      let word := s.1.map lowerChar
      let r2 := s.2.dropWhile pySpace
      if nextEngDigit r2 then word ++ 32 :: cleanTextGo fuel r2
      else word ++ cleanTextGo fuel r2
    else if isDigit c then
      let s := spanP isDigit (c :: cs)
      let d := dotDigits s.2.length s.2
      let num := s.1 ++ d.1
      let r2 := d.2.dropWhile pySpace
      if nextEngDigit r2 then num ++ 32 :: cleanTextGo fuel r2
      else num ++ cleanTextGo fuel r2
    else if isChinese c then c :: cleanTextGo fuel cs
    else cleanTextGo fuel cs

/-- Final `while result and result[-1] == ' ': result.pop()` cleanup. -/
def rstripSpaces (l : List Nat) : List Nat :=
  (l.reverse.dropWhile (fun c => c == 32)).reverse

/-- Source `SymbolCleaner.clean_text`. -/
def cleanText (l : List Nat) : List Nat := rstripSpaces (cleanTextGo l.length l)

/-! ## `document_processor.Tokenizer` -/

/-- Source `Token.token_type`: the source uses the strings
`'english'`, `'number'`, `'chinese'` (the spec calls them Latin, Digit,
Chinese). -/
inductive TokKind
  | english
  | number
  | chinese
deriving DecidableEq

/-- Source `document_processor.Token`. -/
structure Token where
  text : List Nat
  kind : TokKind
  startPos : Nat
  endPos : Nat
deriving DecidableEq

/-- Main scan of `Tokenizer.tokenize` over the clean text; `pos` is
`current_pos`.  Each iteration consumes at least one character, so fuel =
input length is always sufficient. -/
def tokenizeGo : Nat → Nat → List Nat → List Token
  | 0, _, _ => []
  | _, _, [] => []
  | fuel + 1, pos, c :: cs =>
    if isEnglish c then
      let s := spanP isEnglish (c :: cs)
      let sp := spanP pySpace s.2
      ⟨s.1, .english, pos, pos + s.1.length⟩ ::
        tokenizeGo fuel (pos + s.1.length + sp.1.length) sp.2
    else if isDigit c then
      let s := spanP isDigit (c :: cs)
      let sp := spanP pySpace s.2
      ⟨s.1, .number, pos, pos + s.1.length⟩ ::
        tokenizeGo fuel (pos + s.1.length + sp.1.length) sp.2
    else if isChinese c then
      ⟨[c], .chinese, pos, pos + 1⟩ :: tokenizeGo fuel (pos + 1) cs
    else
      -- whitespace and any other character: advance one position
      tokenizeGo fuel (pos + 1) cs

/-- Source `Tokenizer.tokenize`. -/
def tokenize (clean : List Nat) : List Token := tokenizeGo clean.length 0 clean

/-! ## `document_processor.SequenceGenerator` (token windows) -/

/-- A token-window fragment: the dict produced by
`SequenceGenerator.generate_from_paragraphs` (keeping the fields the
matching stage and the claims use: `sequence`, `display_sequence`,
`paragraph_index`, `start_token_pos`). -/
structure Frag where
  matchKey : List Nat
  display : List Nat
  paraIdx : Nat
  tokenStart : Nat
deriving DecidableEq

/-- Is the token kind `'english'` or `'number'`? -/
def isEngNum : TokKind → Bool
  | .english => true
  | .number => true
  | .chinese => false

/-- Display text of a window: token texts with a single space inserted
between two adjacent tokens iff both are english-or-number. -/
def displayOf : List Token → List Nat
  | [] => []
  | [t] => t.text
  | t :: t' :: rest =>
    t.text ++ (if isEngNum t.kind && isEngNum t'.kind then [32] else []) ++
      displayOf (t' :: rest)

/-- All length-`n` token windows of one paragraph
(`generate_from_paragraphs` inner loop): a paragraph with fewer than `n`
tokens contributes nothing. -/
def windowsFrom (paraIdx n : Nat) (tokens : List Token) : List Frag :=
  if tokens.length < n then []
  else
    (List.range (tokens.length - n + 1)).map (fun i =>
      let w := (tokens.drop i).take n
      { matchKey := (w.map Token.text).flatten
        display := displayOf w
        paraIdx := paraIdx
        tokenStart := i })

/-- Source `SequenceGenerator.generate_from_paragraphs`, given the clean texts of
the paragraphs. -/
def generateFromParagraphs (n : Nat) (cleans : List (List Nat)) : List Frag :=
  (cleans.enum.map (fun pc => windowsFrom pc.1 n (tokenize pc.2))).flatten

/-! ## `optimized_sequence_generator.SequenceInfo` and both generators -/

/-- Source `SequenceInfo`, with the fields the matching stage depends on.
`sequence` is the cleaned match key.  `idx` is a stable numeric id standing
for Python object identity (`id(candidate)`), assigned from construction
order.  `paraIdx`/`tokenStart` are the positional provenance
(`paragraph_index` / `start_token_pos`, resp. `start_index` of the
character path); they never influence the matching computation.
`raw_sequence`, `start_char`, `end_char`, `chars` and `hash_signature` are
dropped: they are display/provenance only — in `_compare_sequences_chunk`
both branches of the `hash_signature` test perform the identical
`is_similar` call, so the signature cannot affect the result. -/
structure SeqInfo where
  sequence : List Nat
  idx : Nat
  paraIdx : Nat
  tokenStart : Nat
deriving DecidableEq

/-- Source `similarity_service._convert_to_sequence_info`: `start_index` is the
position in the fragment list. -/
def convertToSeqInfo (frags : List Frag) : List SeqInfo :=
  frags.enum.map (fun p =>
    { sequence := p.2.matchKey
      idx := p.1
      paraIdx := p.2.paraIdx
      tokenStart := p.2.tokenStart })

/-- Source `OptimizedSequenceGenerator._clean_sequence`: keep Chinese, ASCII
letters of either case (not lower-cased) and digits, drop the rest. -/
def cleanSeq (l : List Nat) : List Nat :=
  l.filter (fun c => isChinese c || isEnglish c || isDigit c)

/-- Source `OptimizedSequenceGenerator.generate_sequences` (the character-window
path): slide a window of `n` characters, display is the chars joined by
single spaces, the match key is the cleaned window; a window whose cleaned
key is shorter than 3 is skipped. -/
def generateSequencesChars (n : Nat) (chars : List Nat) : List SeqInfo :=
  if chars.length < n then []
  else
    (List.range (chars.length - n + 1)).filterMap (fun i =>
      let w := (chars.drop i).take n
      let clean := cleanSeq (List.intersperse 32 w)
      if clean.length < 3 then none
      else some { sequence := clean, idx := i, paraIdx := 0, tokenStart := i })

/-! ## Python `str.split()` -/

/-- Python `str.split()` with no separator: split on runs of whitespace, no empty
words.  Fuel = input length suffices (each iteration consumes ≥ 1 char). -/
def splitWsGo : Nat → List Nat → List (List Nat)
  | 0, _ => []
  | _, [] => []
  | fuel + 1, c :: cs =>
    if pySpace c then splitWsGo fuel cs
    else
      let s := spanP (fun d => !pySpace d) (c :: cs)
      s.1 :: splitWsGo fuel s.2

def splitWs (l : List Nat) : List (List Nat) := splitWsGo l.length l

/-! ## `difflib.SequenceMatcher` (ratio)

The sequences fed to the matcher are far shorter than 200 elements, so
CPython's autojunk heuristic never marks any element as junk and `b2j`
holds every position of `b`; the junk tests in `find_longest_match` are
therefore constantly false and are dropped from this embedding. -/

/-- Length of the longest common suffix of `a[alo..i]` and `b[blo..j]`
ending exactly at positions `i`/`j` — the value `j2len` holds for `(i, j)`
in `find_longest_match`.  Fuel `i + 1` suffices (i decreases). -/
def sufLenGo : Nat → List Nat → List Nat → Nat → Nat → Nat → Nat → Nat
  | 0, _, _, _, _, _, _ => 0
  | fuel + 1, a, b, alo, blo, i, j =>
    match a.get? i, b.get? j with
    | some x, some y =>
      if x = y then
        if i = alo ∨ j = blo then 1
        else 1 + sufLenGo fuel a b alo blo (i - 1) (j - 1)
      else 0
    | _, _ => 0

/-- The `while besti > alo and bestj > blo and a[besti-1] == b[bestj-1]`
extension loop of `find_longest_match` (vacuous without junk, kept for
fidelity). -/
def extendLGo : Nat → List Nat → List Nat → Nat → Nat → Nat × Nat × Nat → Nat × Nat × Nat
  | 0, _, _, _, _, best => best
  | fuel + 1, a, b, alo, blo, best =>
    if alo < best.1 ∧ blo < best.2.1 ∧ (a.get? (best.1 - 1)).isSome ∧
        a.get? (best.1 - 1) = b.get? (best.2.1 - 1) then
      extendLGo fuel a b alo blo (best.1 - 1, best.2.1 - 1, best.2.2 + 1)
    else best

/-- The symmetric right-extension loop of `find_longest_match`. -/
def extendRGo : Nat → List Nat → List Nat → Nat → Nat → Nat × Nat × Nat → Nat × Nat × Nat
  | 0, _, _, _, _, best => best
  | fuel + 1, a, b, ahi, bhi, best =>
    if best.1 + best.2.2 < ahi ∧ best.2.1 + best.2.2 < bhi ∧
        (a.get? (best.1 + best.2.2)).isSome ∧
        a.get? (best.1 + best.2.2) = b.get? (best.2.1 + best.2.2) then
      extendRGo fuel a b ahi bhi (best.1, best.2.1, best.2.2 + 1)
    else best

/-- Source `SequenceMatcher.find_longest_match` on the window
`a[alo..ahi) × b[blo..bhi)`: returns `(besti, bestj, bestsize)`; scan order
is `i` ascending then `j` ascending with a strict improvement test, so the
first longest block encountered wins, exactly as in difflib. -/
def flm (a b : List Nat) (alo ahi blo bhi : Nat) : Nat × Nat × Nat :=
  let base :=
    (List.range' alo (ahi - alo)).foldl (fun best i =>
      (List.range' blo (bhi - blo)).foldl (fun best j =>
        if (a.get? i).isSome ∧ a.get? i = b.get? j then
          let k := sufLenGo (i + 1) a b alo blo i j
          if best.2.2 < k then (i + 1 - k, j + 1 - k, k) else best
        else best) best) (alo, blo, 0)
  extendRGo (a.length + 1) a b ahi bhi (extendLGo (a.length + 1) a b alo blo base)

/-- Total size of the matching blocks found by the recursive decomposition
of `SequenceMatcher.get_matching_blocks` (the queue-based splitting around
each longest match).  Each recursion strictly shrinks the window, so fuel
`|a| + |b| + 1` is always sufficient. -/
def matchSumGo : Nat → List Nat → List Nat → Nat → Nat → Nat → Nat → Nat
  | 0, _, _, _, _, _, _ => 0
  | fuel + 1, a, b, alo, ahi, blo, bhi =>
    let r := flm a b alo ahi blo bhi
    if r.2.2 = 0 then 0
    else
      matchSumGo fuel a b alo r.1 blo r.2.1 + r.2.2 +
        matchSumGo fuel a b (r.1 + r.2.2) ahi (r.2.1 + r.2.2) bhi

/-- Total `M`: the number of matching elements between `a` and `b`. -/
def matchTotal (a b : List Nat) : Nat :=
  matchSumGo (a.length + b.length + 1) a b 0 a.length 0 b.length

/-- Source `SequenceMatcher.ratio() = 2.0 * M / T`, in exact rational arithmetic
(the Python value is the nearest double; all comparisons the engine makes
against thresholds are decided identically on the rationals involved
here).  difflib returns 1.0 when both sequences are empty. -/
def ratio (a b : List Nat) : ℚ :=
  if a.length + b.length = 0 then 1
  else mkRat (2 * matchTotal a b) (a.length + b.length)

/-! ## `FastSimilarityCalculator` -/

/-- Absolute difference of two naturals. -/
def natDiff (m n : Nat) : Nat := max m n - min m n

/-- Source `FastSimilarityCalculator.calculate_similarity`: early-reject with 0
when the whitespace-split word counts differ by more than 2, else the
difflib ratio.  (A key without whitespace counts as a single word.) -/
def calculateSimilarity (seq1 seq2 : List Nat) : ℚ :=
  if 2 < natDiff (splitWs seq1).length (splitWs seq2).length then 0
  else ratio seq1 seq2

/-! ## Bucket index and candidate generation
(`OptimizedSequenceGenerator.create_hash_lookup_table` and the candidate
step of `find_similar_sequences_parallel`) -/

/-- Last `n` elements of a list (`l[-n:]`). -/
def lastN (n : Nat) (l : List α) : List α := l.drop (l.length - n)

/-- Python `" ".join(words)`. -/
def joinWords (ws : List (List Nat)) : List Nat := (List.intersperse [32] ws).flatten

/-- Python `[words[i] for i in range(0, 8, 2)]`: the words at indices 0, 2, 4, 6
(callers guard `len(words) >= 8`). -/
def evens8 : List (List Nat) → List (List Nat)
  | w0 :: _ :: w2 :: _ :: w4 :: _ :: w6 :: _ => [w0, w2, w4, w6]
  | _ => []

/-- The key parts a sequence is inserted under in
`create_hash_lookup_table` (md5-8 modelled as the key part itself; order
and multiplicity follow the insertion order of the source). -/
def bucketKeys (s : List Nat) : List (List Nat) :=
  let words := splitWs s
  if words.length = 1 then
    if 4 ≤ s.length then
      s.take 4 :: (if 8 ≤ s.length then [lastN 4 s] else [])
    else []
  else
    (if 4 ≤ words.length then [joinWords (words.take 4), joinWords (lastN 4 words)]
     else []) ++
      (if 8 ≤ words.length then [joinWords (evens8 words)] else [])

/-- Keep-first deduplication keyed by `f` (`if x not in seen` pattern). -/
def dedupByGo (f : α → β) [DecidableEq β] (seen : List β) : List α → List α
  | [] => []
  | x :: xs =>
    if f x ∈ seen then dedupByGo f seen xs
    else x :: dedupByGo f (f x :: seen) xs

def dedupBy (f : α → β) [DecidableEq β] (l : List α) : List α := dedupByGo f [] l

/-- The candidate hash set of an A fragment in
`find_similar_sequences_parallel`: the same key parts as the bucket
insertion, collected into a set.  Only the set's cardinality and contents
matter downstream (the pair's B component is discarded when batches are
formed), so the set is modelled as the key list with duplicates removed. -/
def candidateKeys (s : List Nat) : List (List Nat) := dedupBy id (bucketKeys s)

/-- Source `file2_hash_table[hash_key]`: the B fragments inserted under `k`, in
insertion order with multiplicity. -/
def bucketLookup (fileB : List SeqInfo) (k : List Nat) : List SeqInfo :=
  (fileB.map (fun s =>
    ((bucketKeys s.sequence).filter (fun k2 => k2 = k)).map (fun _ => s))).flatten

/-- Candidate B fragments of `a`: union of the bucket contents of its
candidate keys, de-duplicated by object identity (modelled by the stable
`idx` id). -/
def candidatesOf (fileB : List SeqInfo) (a : SeqInfo) : List SeqInfo :=
  dedupBy SeqInfo.idx
    (((candidateKeys a.sequence).map (bucketLookup fileB)).flatten)

/-- Source `candidate_pairs`. -/
def candidatePairs (fileA fileB : List SeqInfo) : List (SeqInfo × SeqInfo) :=
  (fileA.map (fun a => (candidatesOf fileB a).map (fun b => (a, b)))).flatten

/-! ## Batching, workers, dedup, sort
(`find_similar_sequences_parallel`, `_compare_sequences_chunk`,
`_remove_duplicates`) -/

/-- Split a list into consecutive chunks of size `k`
(`candidate_pairs[i:i+chunk_size]`). -/
def chunkListGo : Nat → Nat → List α → List (List α)
  | 0, _, _ => []
  | _, _, [] => []
  | fuel + 1, k, l => l.take k :: chunkListGo fuel k (l.drop k)

/-- The per-worker batches: each chunk of candidate pairs is reduced to its
A fragments (`file1_chunk = [pair[0] for pair in chunk]`; the B component
of a pair is never used again).  Chunk size is
`max(100, len(candidate_pairs) // num_processes)`. -/
def chunksOf (np : Nat) (pairs : List (SeqInfo × SeqInfo)) : List (List SeqInfo) :=
  let k := max 100 (pairs.length / np)
  (chunkListGo pairs.length k pairs).map (fun c => c.map Prod.fst)

/-- Source `SimilarSequenceInfo`, keeping the fields the ranking uses
(the `differences` strings are display only). -/
structure Match where
  seq1 : SeqInfo
  seq2 : SeqInfo
  similarity : ℚ
deriving DecidableEq

/-- Source `_compare_sequences_chunk`: every A fragment of the batch is scored
against every fragment of document B; pairs reaching the threshold are
kept.  (Both branches of the `hash_signature` test in the source perform
the identical computation.) -/
def workerOut (τ : ℚ) (fileB : List SeqInfo) (chunk : List SeqInfo) : List Match :=
  (chunk.map (fun s1 =>
    fileB.filterMap (fun s2 =>
      let sim := calculateSimilarity s1.sequence s2.sequence
      if τ ≤ sim then some ⟨s1, s2, sim⟩ else none))).flatten

/-- Concatenation of the worker outputs in batch submission order
(the driver collects `future.result()` in submission order). -/
def mergedMatches (fileA fileB : List SeqInfo) (τ : ℚ) (np : Nat) : List Match :=
  ((chunksOf np (candidatePairs fileA fileB)).map (workerOut τ fileB)).flatten

/-- The dedup key of `_remove_duplicates`:
`(seq_info.sequence1.sequence, seq_info.sequence2.sequence)`. -/
def matchIdent (m : Match) : List Nat × List Nat := (m.seq1.sequence, m.seq2.sequence)

/-- Source `OptimizedSequenceGenerator._remove_duplicates`. -/
def removeDuplicates (l : List Match) : List Match := dedupBy matchIdent l

/-- Stable insertion of `x` (originally before every element of the list)
into a list sorted by similarity descending: `x` goes before the first
element whose similarity is not greater. -/
def insertDesc (x : Match) : List Match → List Match
  | [] => [x]
  | y :: ys =>
    if x.similarity < y.similarity then y :: insertDesc x ys else x :: y :: ys

/-- Source `unique_sequences.sort(key=lambda x: x.similarity, reverse=True)`:
Python's sort is stable, and any stable sort by the same key produces the
same list, so it is modelled by stable insertion sort. -/
def sortDesc : List Match → List Match
  | [] => []
  | x :: xs => insertDesc x (sortDesc xs)

/-- Source `OptimizedSequenceGenerator.find_similar_sequences_parallel`:
candidate generation, batching, parallel scoring, merge, dedup, sort. -/
def findSimilarParallel (fileA fileB : List SeqInfo) (τ : ℚ) (np : Nat) : List Match :=
  sortDesc (removeDuplicates (mergedMatches fileA fileB τ np))

/-! ## Fragment caps
(`OptimizedSimilarSequenceDetector.process_pdf_with_limit` and
`SequenceGenerationStage.process`) -/

/-- Python `l[::step]` for `step ≥ 1`: the elements at indices
0, step, 2·step, …  Fuel = list length suffices. -/
def everyNthGo : Nat → Nat → List α → List α
  | 0, _, _ => []
  | _, _, [] => []
  | fuel + 1, step, x :: xs => x :: everyNthGo fuel step (xs.drop (step - 1))

def everyNth (step : Nat) (l : List α) : List α := everyNthGo l.length step l

/-- The cap of `process_pdf_with_limit`:
`step = len(sequences) // max_sequences; sequences[::step][:max_sequences]`
when the count exceeds the cap. -/
def capDetector (maxSeq : Nat) (l : List α) : List α :=
  if maxSeq < l.length then (everyNth (l.length / maxSeq) l).take maxSeq else l

/-- The cap of the web pipeline stage (`SequenceGenerationStage.process`,
also `similarity_service._detect_similarity_sync`):
`sequences[:max_sequences]` when the count exceeds the cap. -/
def capWeb (maxSeq : Nat) (l : List α) : List α :=
  if maxSeq < l.length then l.take maxSeq else l

/-! ## Context extraction
(`similarity_service._extract_context_from_paragraph`; the identical
algorithm appears as `DocumentProcessor.get_context_from_paragraph`) -/

/-- A paragraph as the context reifier sees it. -/
structure Paragraph where
  raw : List Nat
  clean : List Nat
deriving DecidableEq

/-- Is `needle` a prefix of `l`? -/
def isPrefOf : List Nat → List Nat → Bool
  | [], _ => true
  | _ :: _, [] => false
  | a :: as, b :: bs => a == b && isPrefOf as bs

/-- Python `str.find`: index of the first occurrence of `needle`, `none`
for `-1`. -/
def pythonFindGo (needle : List Nat) : Nat → List Nat → Option Nat
  | i, [] => if isPrefOf needle [] then some i else none
  | i, c :: t =>
    if isPrefOf needle (c :: t) then some i else pythonFindGo needle (i + 1) t

def pythonFind (hay needle : List Nat) : Option Nat := pythonFindGo needle 0 hay

/-- The `for raw_pos, char in enumerate(raw)` loop locating the raw index
of the `target`-th valid character: stops at that character; when the loop
runs out, `raw_pos` is the last index scanned (0 for empty input). -/
def rawPosGo (target : Nat) : Nat → Nat → List Nat → Nat
  | idx, _, [] => if idx = 0 then 0 else idx - 1
  | idx, cnt, c :: cs =>
    if isValidChar c then
      if cnt = target then idx else rawPosGo target (idx + 1) (cnt + 1) cs
    else rawPosGo target (idx + 1) cnt cs

def rawPosOf (target : Nat) (raw : List Nat) : Nat := rawPosGo target 0 0 raw

/-- The `while match_end_pos < len(raw) and valid_match_count < len(matched)`
loop: number of raw characters consumed to cover `need` valid ones. -/
def matchSpanLen : Nat → List Nat → Nat
  | _, [] => 0
  | need, c :: cs =>
    if need = 0 then 0
    else if isValidChar c then 1 + matchSpanLen (need - 1) cs
    else 1 + matchSpanLen need cs

/-- The context-collection loop: append characters until `K` valid ones
have been collected (the char that reaches the count is included, then the
loop breaks). -/
def takeKValid (k : Nat) : List Nat → List Nat
  | [] => []
  | c :: cs =>
    if isValidChar c then
      if k ≤ 1 then [c] else c :: takeKValid (k - 1) cs
    else c :: takeKValid k cs

/-- Source `_extract_context_from_paragraph`: locate the cleaned match in
`clean`, map to a raw position by counting valid characters, then collect
`K`-valid-character context windows on both sides (invalid characters are
included verbatim and do not count). -/
def extractContext (p : Paragraph) (matched : List Nat) (k : Nat) :
    List Nat × List Nat :=
  match pythonFind p.clean matched with
  | none => ([], [])
  | some mp =>
    let rp := rawPosOf mp p.raw
    let me' := rp + matchSpanLen matched.length (p.raw.drop rp)
    ((takeKValid k ((p.raw.take rp).reverse)).reverse,
     takeKValid k (p.raw.drop me'))

/-- The raw-text span the context windows are glued around:
`raw[raw_pos : match_end_pos]`. -/
def rawMatchSpan (p : Paragraph) (matched : List Nat) : List Nat :=
  match pythonFind p.clean matched with
  | none => []
  | some mp =>
    let rp := rawPosOf mp p.raw
    (p.raw.drop rp).take (matchSpanLen matched.length (p.raw.drop rp))

/-- Count of valid codepoints in a list. -/
def countValid (l : List Nat) : Nat := (l.filter (fun c => isValidChar c)).length

/-! ## Concrete scenario inputs -/

/-- Scenario 4 of the spec, document A: one paragraph with raw text
`"我今天,吃了一个苹果。"`, window 5, through the token pipeline. -/
def s4A : List SeqInfo :=
  convertToSeqInfo (generateFromParagraphs 5 [cleanText (cps "我今天,吃了一个苹果。")])

/-- Scenario 4, document B: `"他昨天吃了一个西瓜"`. -/
def s4B : List SeqInfo :=
  convertToSeqInfo (generateFromParagraphs 5 [cleanText (cps "他昨天吃了一个西瓜")])

/-- Scenario 4 output at τ = 0.6. -/
def s4out : List Match := findSimilarParallel s4A s4B (mkRat 3 5) 8

/-- Character-path scenario: A = `"天吃了一个"`, window 4. -/
def s9A : List SeqInfo := generateSequencesChars 4 (cps "天吃了一个")

/-- Character-path scenario: B = `"天吃了一，天吃了"` (full-width comma),
window 4.  Four of its five windows clean to 3-codepoint keys. -/
def s9B : List SeqInfo := generateSequencesChars 4 (cps "天吃了一，天吃了")

def s9out : List Match := findSimilarParallel s9A s9B (mkRat 3 5) 8

/-- Character-path scenario with a duplicated B key: A = `"天吃了一"`,
B = `"天吃了一天吃了一"`, window 4, τ = 0.9. -/
def s10A : List SeqInfo := generateSequencesChars 4 (cps "天吃了一")

def s10B : List SeqInfo := generateSequencesChars 4 (cps "天吃了一天吃了一")

def s10out : List Match := findSimilarParallel s10A s10B (mkRat 9 10) 8

/-- The single A fragment of the `s10` scenario. -/
def s10a : SeqInfo := ⟨cps "天吃了一", 0, 0, 0⟩

/-! ## The claim theorems -/

/-- The codepoints `clean_text` can emit: Chinese, lower-case ASCII
letters, digits, and the ASCII space separator. -/
def validOutChar (c : Nat) : Prop :=
  isChinese c = true ∨ isEnglishLower c = true ∨ isDigit c = true ∨ c = 32

/-- Modelled from the spec: the token count the claim describes —
"splitting on spaces if the key contains spaces, else by individual
codepoints". -/
def specTokenCount (s : List Nat) : Nat :=
  if s.any (fun c => c == 32) then (splitWs s).length else s.length

/-- The scenario-4 A paragraph for the `c8_context` witness. -/
def c8para : Paragraph :=
  ⟨cps "我今天,吃了一个苹果。", cleanText (cps "我今天,吃了一个苹果。")⟩

/-- The match the `c10_amended` witness instantiates. -/
def s10match : Match := ⟨s10a, ⟨cps "天吃了一", 0, 0, 0⟩, 1⟩

/-- A merged list with a duplicated key pair, for the `c6_dedup` witness:
the first and third entries share the key pair. -/
def c6input : List Match :=
  [⟨⟨cps "天吃了一", 0, 0, 0⟩, ⟨cps "天吃了一", 0, 0, 0⟩, 1⟩,
   ⟨⟨cps "吃了一天", 1, 0, 1⟩, ⟨cps "天吃了一", 0, 0, 0⟩, mkRat 3 4⟩,
   ⟨⟨cps "天吃了一", 5, 0, 5⟩, ⟨cps "天吃了一", 0, 0, 0⟩, 1⟩]

/-! ## Theorems -/

theorem spanP_append (p : Nat → Bool) (l : List Nat) :
    (spanP p l).1 ++ (spanP p l).2 = l := by
  induction l with
  | nil => simp [spanP]
  | cons c cs ih =>
    by_cases h : p c <;> simp [spanP, h, ih]

theorem spanP_fst_all (p : Nat → Bool) (l : List Nat) :
    ∀ c ∈ (spanP p l).1, p c = true := by
  induction l with
  | nil => intro c hc; simp [spanP] at hc
  | cons a as ih =>
    intro c hc
    by_cases h : p a
    · simp only [spanP, h, if_pos] at hc
      rcases List.mem_cons.mp hc with rfl | hc
      · exact h
      · exact ih c hc
    · simp [spanP, h] at hc

theorem spanP_snd_length (p : Nat → Bool) (l : List Nat) :
    (spanP p l).2.length ≤ l.length := by
  induction l with
  | nil => simp [spanP]
  | cons a as ih =>
    by_cases h : p a
    · simp only [spanP, h, if_pos, List.length_cons]
      omega
    · simp [spanP, h]

theorem dotDigits_fst_all (fuel : Nat) (l : List Nat) :
    ∀ c ∈ (dotDigits fuel l).1, isDigit c = true := by
  induction fuel generalizing l with
  | zero => simp [dotDigits]
  | succ n ih =>
    match l with
    | [] => simp [dotDigits]
    | c :: cs =>
      intro x hx
      by_cases h : c = 46
      · simp only [dotDigits, h, if_pos, List.mem_append] at hx
        rcases hx with hx | hx
        · exact spanP_fst_all isDigit cs x hx
        · exact ih _ x hx
      · simp [dotDigits, h] at hx

theorem dotDigits_snd_length (fuel : Nat) (l : List Nat) :
    (dotDigits fuel l).2.length ≤ l.length := by
  induction fuel generalizing l with
  | zero => simp [dotDigits]
  | succ n ih =>
    match l with
    | [] => simp [dotDigits]
    | c :: cs =>
      by_cases h : c = 46
      · simp only [dotDigits, h, if_pos, List.length_cons]
        have h1 := ih (spanP isDigit cs).2
        have h2 := spanP_snd_length isDigit cs
        omega
      · simp [dotDigits, h]

theorem splitWsGo_length_le (fuel : Nat) (l : List Nat) (h : l.length ≤ fuel) :
    (splitWsGo fuel l).length ≤ l.length := by
  induction fuel generalizing l with
  | zero => simp [splitWsGo]
  | succ n ih =>
    match l with
    | [] => simp [splitWsGo]
    | c :: cs =>
      by_cases hc : pySpace c
      · simp only [splitWsGo, hc, if_pos]
        have := ih cs (by simp at h; omega)
        simp only [List.length_cons]
        omega
      · simp only [splitWsGo, hc, Bool.false_eq_true, if_false, List.length_cons]
        have hlen : (spanP (fun d => !pySpace d) (c :: cs)).2.length ≤ cs.length := by
          have h2 : (spanP (fun d => !pySpace d) (c :: cs)).2.length ≤ cs.length + 1 := by
            simpa using spanP_snd_length (fun d => !pySpace d) (c :: cs)
          have h3 : (spanP (fun d => !pySpace d) (c :: cs)).1 =
              c :: (spanP (fun d => !pySpace d) cs).1 := by
            simp [spanP, hc]
          have h4 := spanP_append (fun d => !pySpace d) (c :: cs)
          have h5 := congrArg List.length h4
          simp only [List.length_append, h3, List.length_cons] at h5
          omega
        have := ih (spanP (fun d => !pySpace d) (c :: cs)).2 (by simp at h; omega)
        omega

/-- Number of words is at most the number of characters. -/
theorem splitWs_length_le (l : List Nat) : (splitWs l).length ≤ l.length :=
  splitWsGo_length_le l.length l le_rfl

theorem everyNthGo_sublist (fuel step : Nat) (l : List α) :
    (everyNthGo fuel step l).Sublist l := by
  induction fuel generalizing l with
  | zero => simp [everyNthGo]
  | succ n ih =>
    match l with
    | [] => simp [everyNthGo]
    | x :: xs =>
      simp only [everyNthGo]
      exact List.Sublist.cons₂ x ((ih _).trans (List.drop_sublist _ xs))

/-- The detector cap keeps a subsequence of the original in order. -/
theorem capDetector_sublist (maxSeq : Nat) (l : List α) :
    (capDetector maxSeq l).Sublist l := by
  unfold capDetector
  split
  · exact (List.take_sublist _ _).trans (everyNthGo_sublist _ _ _)
  · exact List.Sublist.refl l

/-- The web cap keeps a prefix of the original in order. -/
theorem capWeb_sublist (maxSeq : Nat) (l : List α) :
    (capWeb maxSeq l).Sublist l := by
  unfold capWeb
  split
  · exact List.take_sublist _ _
  · exact List.Sublist.refl l

/-! ## Lemmas about keep-first deduplication -/

theorem mem_of_mem_dedupByGo (f : α → β) [DecidableEq β] (seen : List β)
    (l : List α) (x : α) (hx : x ∈ dedupByGo f seen l) : x ∈ l := by
  induction l generalizing seen with
  | nil => simp [dedupByGo] at hx
  | cons a as ih =>
    by_cases h : f a ∈ seen
    · simp only [dedupByGo, h, if_pos] at hx
      exact List.mem_cons_of_mem a (ih seen hx)
    · simp only [dedupByGo, h, if_neg, not_false_iff] at hx
      rcases List.mem_cons.mp hx with rfl | hx
      · exact List.mem_cons_self x as
      · exact List.mem_cons_of_mem a (ih _ hx)

theorem dedupByGo_key_not_seen (f : α → β) [DecidableEq β] (seen : List β)
    (l : List α) (x : α) (hx : x ∈ dedupByGo f seen l) : f x ∉ seen := by
  induction l generalizing seen with
  | nil => simp [dedupByGo] at hx
  | cons a as ih =>
    by_cases h : f a ∈ seen
    · simp only [dedupByGo, h, if_pos] at hx
      exact ih seen hx
    · simp only [dedupByGo, h, if_neg, not_false_iff] at hx
      rcases List.mem_cons.mp hx with rfl | hx
      · exact h
      · have := ih _ hx
        intro hc
        exact this (List.mem_cons_of_mem _ hc)

theorem dedupByGo_pairwise (f : α → β) [DecidableEq β] (seen : List β)
    (l : List α) : (dedupByGo f seen l).Pairwise (fun x y => f x ≠ f y) := by
  induction l generalizing seen with
  | nil => simp [dedupByGo]
  | cons a as ih =>
    by_cases h : f a ∈ seen
    · simp only [dedupByGo, h, if_pos]
      exact ih seen
    · simp only [dedupByGo, h, if_neg, not_false_iff]
      refine List.Pairwise.cons ?_ (ih _)
      intro y hy
      have := dedupByGo_key_not_seen f _ as y hy
      intro hc
      exact this (hc ▸ List.mem_cons_self (f a) seen)

theorem exists_mem_dedupByGo (f : α → β) [DecidableEq β] (seen : List β)
    (l : List α) (x : α) (hx : x ∈ l) (hs : f x ∉ seen) :
    ∃ y ∈ dedupByGo f seen l, f y = f x := by
  induction l generalizing seen with
  | nil => simp at hx
  | cons a as ih =>
    by_cases h : f a ∈ seen
    · simp only [dedupByGo, h, if_pos]
      rcases List.mem_cons.mp hx with rfl | hx
      · exact absurd h hs
      · exact ih seen hx hs
    · simp only [dedupByGo, h, if_neg, not_false_iff]
      by_cases hfa : f x = f a
      · exact ⟨a, List.mem_cons_self a _, hfa.symm⟩
      · rcases List.mem_cons.mp hx with rfl | hx
        · exact absurd rfl hfa
        · have hs' : f x ∉ f a :: seen := by
            intro hc
            rcases List.mem_cons.mp hc with hc | hc
            · exact hfa hc
            · exact hs hc
          rcases ih (f a :: seen) hx hs' with ⟨y, hy, hfy⟩
          exact ⟨y, List.mem_cons_of_mem a hy, hfy⟩

/-- Every survivor of keep-first dedup is the first element of the input
bearing its key (relative to keys not already seen). -/
theorem dedupByGo_first (f : α → β) [DecidableEq β] (seen : List β)
    (l : List α) (x : α) (hx : x ∈ dedupByGo f seen l) :
    ∃ l1 l2, l = l1 ++ x :: l2 ∧ ∀ y ∈ l1, f y ∈ seen ∨ f y ≠ f x := by
  induction l generalizing seen with
  | nil => simp [dedupByGo] at hx
  | cons a as ih =>
    by_cases h : f a ∈ seen
    · simp only [dedupByGo, h, if_pos] at hx
      rcases ih seen hx with ⟨l1, l2, rfl, hall⟩
      refine ⟨a :: l1, l2, rfl, ?_⟩
      intro y hy
      rcases List.mem_cons.mp hy with rfl | hy
      · exact Or.inl h
      · exact hall y hy
    · simp only [dedupByGo, h, if_neg, not_false_iff] at hx
      rcases List.mem_cons.mp hx with rfl | hx
      · exact ⟨[], as, rfl, by simp⟩
      · rcases ih _ hx with ⟨l1, l2, rfl, hall⟩
        have hkey := dedupByGo_key_not_seen f _ _ x hx
        refine ⟨a :: l1, l2, rfl, ?_⟩
        intro y hy
        rcases List.mem_cons.mp hy with rfl | hy
        · refine Or.inr ?_
          intro hc
          exact hkey (hc ▸ List.mem_cons_self (f y) seen)
        · rcases hall y hy with hys | hys
          · rcases List.mem_cons.mp hys with hys | hys
            · refine Or.inr ?_
              intro hc
              exact hkey (hc ▸ hys ▸ List.mem_cons_self (f a) seen)
            · exact Or.inl hys
          · exact Or.inr hys

/-! ## Lemmas about the stable descending sort -/

theorem mem_insertDesc (x y : Match) (l : List Match) :
    y ∈ insertDesc x l ↔ y = x ∨ y ∈ l := by
  induction l with
  | nil => simp [insertDesc]
  | cons a as ih =>
    by_cases h : x.similarity < a.similarity
    · simp only [insertDesc, h, if_pos, List.mem_cons, ih]
      tauto
    · simp only [insertDesc, h, if_neg, not_false_iff, List.mem_cons]

theorem mem_sortDesc (y : Match) (l : List Match) :
    y ∈ sortDesc l ↔ y ∈ l := by
  induction l with
  | nil => simp [sortDesc]
  | cons a as ih =>
    simp only [sortDesc, mem_insertDesc, List.mem_cons, ih]

theorem sorted_insertDesc (x : Match) (l : List Match)
    (h : l.Pairwise (fun u v => v.similarity ≤ u.similarity)) :
    (insertDesc x l).Pairwise (fun u v => v.similarity ≤ u.similarity) := by
  induction l with
  | nil => simp [insertDesc]
  | cons a as ih =>
    rcases List.pairwise_cons.mp h with ⟨ha, has⟩
    by_cases hx : x.similarity < a.similarity
    · simp only [insertDesc, hx, if_pos]
      refine List.pairwise_cons.mpr ⟨?_, ih has⟩
      intro y hy
      rcases (mem_insertDesc x y as).mp hy with rfl | hy
      · exact le_of_lt hx
      · exact ha y hy
    · simp only [insertDesc, hx, if_neg, not_false_iff]
      refine List.pairwise_cons.mpr ⟨?_, h⟩
      intro y hy
      rcases List.mem_cons.mp hy with rfl | hy
      · exact le_of_not_lt hx
      · exact (ha y hy).trans (le_of_not_lt hx)

theorem sorted_sortDesc (l : List Match) :
    (sortDesc l).Pairwise (fun u v => v.similarity ≤ u.similarity) := by
  induction l with
  | nil => simp [sortDesc]
  | cons a as ih => exact sorted_insertDesc a (sortDesc as) ih

theorem filter_insertDesc_eq (x : Match) (l : List Match) (q : ℚ)
    (hx : x.similarity = q) :
    (insertDesc x l).filter (fun m => m.similarity == q) =
      x :: l.filter (fun m => m.similarity == q) := by
  induction l with
  | nil => simp [insertDesc, List.filter, hx]
  | cons a as ih =>
    by_cases h : x.similarity < a.similarity
    · have ha : (a.similarity == q) = false := by
        refine beq_eq_false_iff_ne.mpr ?_
        intro hc
        rw [hc, ← hx] at h
        exact lt_irrefl _ h
      simp only [insertDesc, h, if_pos, List.filter, ha, ih]
    · simp only [insertDesc, h, if_neg, not_false_iff, List.filter]
      have hx' : (x.similarity == q) = true := by simp [hx]
      simp [hx']

theorem filter_insertDesc_ne (x : Match) (l : List Match) (q : ℚ)
    (hx : x.similarity ≠ q) :
    (insertDesc x l).filter (fun m => m.similarity == q) =
      l.filter (fun m => m.similarity == q) := by
  induction l with
  | nil =>
    have hx' : (x.similarity == q) = false := beq_eq_false_iff_ne.mpr hx
    simp [insertDesc, List.filter, hx']
  | cons a as ih =>
    by_cases h : x.similarity < a.similarity
    · simp only [insertDesc, h, if_pos, List.filter, ih]
    · have hx' : (x.similarity == q) = false := beq_eq_false_iff_ne.mpr hx
      simp only [insertDesc, h, if_neg, not_false_iff, List.filter, hx']

/-- The sort is stable: for every score, the sublist of matches bearing
that score is unchanged. -/
theorem filter_sortDesc (l : List Match) (q : ℚ) :
    (sortDesc l).filter (fun m => m.similarity == q) =
      l.filter (fun m => m.similarity == q) := by
  induction l with
  | nil => simp [sortDesc]
  | cons a as ih =>
    by_cases h : a.similarity = q
    · rw [sortDesc, filter_insertDesc_eq a _ q h, ih]
      have ha : (a.similarity == q) = true := by simp [h]
      simp [List.filter, ha]
    · rw [sortDesc, filter_insertDesc_ne a _ q h, ih]
      have ha : (a.similarity == q) = false := by simp [h]
      simp [List.filter, ha]

/-! ## Lemmas about batching -/

theorem chunkListGo_flatten (fuel k : Nat) (l : List α)
    (hf : l.length ≤ fuel) (hk : 1 ≤ k) :
    (chunkListGo fuel k l).flatten = l := by
  induction fuel generalizing l with
  | zero =>
    have : l = [] := List.length_eq_zero.mp (Nat.le_zero.mp hf)
    simp [this, chunkListGo]
  | succ n ih =>
    match l with
    | [] => simp [chunkListGo]
    | x :: xs =>
      simp only [chunkListGo, List.flatten_cons]
      have hf' : xs.length + 1 ≤ n + 1 := by simpa using hf
      rw [ih ((x :: xs).drop k)
        (by simp only [List.length_drop, List.length_cons]; omega)]
      exact List.take_append_drop k (x :: xs)

/-! ## Soundness and completeness of the matching pipeline -/

/-- Every merged match was accepted by a worker: its recorded similarity
is the scorer's value on its own keys and reaches the threshold, its A
fragment came from some batch (hence from some candidate pair) and its B
fragment belongs to document B. -/
theorem mem_mergedMatches (fileA fileB : List SeqInfo) (τ : ℚ) (np : Nat)
    (m : Match) (hm : m ∈ mergedMatches fileA fileB τ np) :
    m.similarity = calculateSimilarity m.seq1.sequence m.seq2.sequence ∧
      τ ≤ m.similarity ∧ m.seq2 ∈ fileB ∧
      ∃ pr ∈ candidatePairs fileA fileB, pr.1 = m.seq1 := by
  rcases List.mem_flatten.mp hm with ⟨w, hw, hmw⟩
  rcases List.mem_map.mp hw with ⟨chunk, hchunk, rfl⟩
  rcases List.mem_flatten.mp hmw with ⟨row, hrow, hmrow⟩
  rcases List.mem_map.mp hrow with ⟨s1, hs1, rfl⟩
  rcases List.mem_filterMap.mp hmrow with ⟨s2, hs2, hsome⟩
  by_cases hτ : τ ≤ calculateSimilarity s1.sequence s2.sequence
  · simp only [hτ, if_pos] at hsome
    cases hsome
    refine ⟨rfl, hτ, hs2, ?_⟩
    rcases List.mem_map.mp hchunk with ⟨c, hc, rfl⟩
    rcases List.mem_map.mp hs1 with ⟨pr, hpr, rfl⟩
    refine ⟨pr, ?_, rfl⟩
    have hflat : (chunkListGo (candidatePairs fileA fileB).length
        (max 100 ((candidatePairs fileA fileB).length / np))
        (candidatePairs fileA fileB)).flatten = candidatePairs fileA fileB :=
      chunkListGo_flatten _ _ _ le_rfl (le_trans (by norm_num) (le_max_left 100 _))
    have : pr ∈ (chunkListGo (candidatePairs fileA fileB).length
        (max 100 ((candidatePairs fileA fileB).length / np))
        (candidatePairs fileA fileB)).flatten :=
      List.mem_flatten.mpr ⟨c, hc, hpr⟩
    rwa [hflat] at this
  · simp only [hτ, if_neg, not_false_iff] at hsome
    cases hsome

/-- Every candidate pair is headed by an A fragment with a non-empty
candidate list. -/
theorem mem_candidatePairs (fileA fileB : List SeqInfo)
    (pr : SeqInfo × SeqInfo) (hpr : pr ∈ candidatePairs fileA fileB) :
    pr.1 ∈ fileA ∧ pr.2 ∈ candidatesOf fileB pr.1 := by
  rcases List.mem_flatten.mp hpr with ⟨row, hrow, hprrow⟩
  rcases List.mem_map.mp hrow with ⟨a, ha, rfl⟩
  rcases List.mem_map.mp hprrow with ⟨b, hb, rfl⟩
  exact ⟨ha, hb⟩

/-- A worker keeps every pair of its batch that reaches the threshold. -/
theorem mem_workerOut_intro (τ : ℚ) (fileB chunk : List SeqInfo)
    (a b : SeqInfo) (ha : a ∈ chunk) (hb : b ∈ fileB)
    (hτ : τ ≤ calculateSimilarity a.sequence b.sequence) :
    (⟨a, b, calculateSimilarity a.sequence b.sequence⟩ : Match) ∈
      workerOut τ fileB chunk := by
  unfold workerOut
  refine List.mem_flatten.mpr ⟨_, List.mem_map.mpr ⟨a, ha, rfl⟩, ?_⟩
  refine List.mem_filterMap.mpr ⟨b, hb, ?_⟩
  simp only [hτ, if_pos]

/-- Completeness of the batching: an A fragment with at least one
candidate reaches a worker batch, and the worker scores it against every
B fragment; each pair reaching the threshold is in the merged output. -/
theorem mem_merged_of_candidate (fileA fileB : List SeqInfo) (τ : ℚ)
    (np : Nat) (a : SeqInfo) (ha : a ∈ fileA)
    (hcand : candidatesOf fileB a ≠ []) (b : SeqInfo) (hb : b ∈ fileB)
    (hτ : τ ≤ calculateSimilarity a.sequence b.sequence) :
    (⟨a, b, calculateSimilarity a.sequence b.sequence⟩ : Match) ∈
      mergedMatches fileA fileB τ np := by
  rcases List.exists_mem_of_ne_nil _ hcand with ⟨b0, hb0⟩
  have hpair : (a, b0) ∈ candidatePairs fileA fileB := by
    refine List.mem_flatten.mpr ⟨(candidatesOf fileB a).map (fun b => (a, b)),
      List.mem_map.mpr ⟨a, ha, rfl⟩, List.mem_map.mpr ⟨b0, hb0, rfl⟩⟩
  have hflat : (chunkListGo (candidatePairs fileA fileB).length
      (max 100 ((candidatePairs fileA fileB).length / np))
      (candidatePairs fileA fileB)).flatten = candidatePairs fileA fileB :=
    chunkListGo_flatten _ _ _ le_rfl (le_trans (by norm_num) (le_max_left 100 _))
  have hpair' : (a, b0) ∈ (chunkListGo (candidatePairs fileA fileB).length
      (max 100 ((candidatePairs fileA fileB).length / np))
      (candidatePairs fileA fileB)).flatten := by rw [hflat]; exact hpair
  rcases List.mem_flatten.mp hpair' with ⟨c, hc, hprc⟩
  refine List.mem_flatten.mpr ⟨workerOut τ fileB (c.map Prod.fst), ?_, ?_⟩
  · exact List.mem_map.mpr ⟨c.map Prod.fst, List.mem_map.mpr ⟨c, hc, rfl⟩, rfl⟩
  · exact mem_workerOut_intro τ fileB (c.map Prod.fst) a b
      (List.mem_map.mpr ⟨(a, b0), hprc, rfl⟩) hb hτ

/-- A fragment with an empty candidate key list has no candidates. -/
theorem candidatesOf_eq_nil_of_keys (fileB : List SeqInfo) (a : SeqInfo)
    (h : candidateKeys a.sequence = []) : candidatesOf fileB a = [] := by
  unfold candidatesOf
  rw [h]
  rfl

/-- A key shorter than 4 codepoints is inserted under no bucket key. -/
theorem bucketKeys_eq_nil_of_short (s : List Nat) (h : s.length < 4) :
    bucketKeys s = [] := by
  unfold bucketKeys
  have hw := splitWs_length_le s
  by_cases h1 : (splitWs s).length = 1
  · simp only [h1, if_pos]
    have : ¬ 4 ≤ s.length := by omega
    simp [this]
  · simp only [h1, if_neg, not_false_iff]
    have h4 : ¬ 4 ≤ (splitWs s).length := by omega
    have h8 : ¬ 8 ≤ (splitWs s).length := by omega
    simp [h4, h8]

/-- A non-empty bucket key list forces a key of at least 4 codepoints. -/
theorem length_ge_of_bucketKeys_ne_nil (s : List Nat)
    (h : bucketKeys s ≠ []) : 4 ≤ s.length := by
  by_contra hc
  exact h (bucketKeys_eq_nil_of_short s (by omega))

/-! ## Lemmas about the context reifier -/

/-- The collected context is an initial segment of the scanned text. -/
theorem takeKValid_append (k : Nat) (l : List Nat) :
    ∃ t, takeKValid k l ++ t = l := by
  induction l generalizing k with
  | nil => exact ⟨[], rfl⟩
  | cons c cs ih =>
    by_cases hv : isValidChar c
    · by_cases hk : k ≤ 1
      · simp only [takeKValid, hv, hk, if_pos]
        exact ⟨cs, rfl⟩
      · simp only [takeKValid, hv, hk, if_pos, if_neg, not_false_iff]
        rcases ih (k - 1) with ⟨t, ht⟩
        exact ⟨t, by simp [ht]⟩
    · simp only [takeKValid, hv, Bool.false_eq_true, if_neg, not_false_iff]
      rcases ih k with ⟨t, ht⟩
      exact ⟨t, by simp [ht]⟩

theorem countValid_cons_valid (c : Nat) (l : List Nat)
    (hv : isValidChar c = true) : countValid (c :: l) = countValid l + 1 := by
  simp [countValid, List.filter, hv]

theorem countValid_cons_invalid (c : Nat) (l : List Nat)
    (hv : ¬ isValidChar c = true) : countValid (c :: l) = countValid l := by
  simp only [countValid, List.filter]
  have : isValidChar c = false := by
    cases h : isValidChar c
    · rfl
    · exact absurd h hv
  simp [this]

/-- Each context window contains at most `K` valid codepoints (`K ≥ 1`). -/
theorem countValid_takeKValid (k : Nat) (hk : 1 ≤ k) (l : List Nat) :
    countValid (takeKValid k l) ≤ k := by
  induction l generalizing k with
  | nil => simp [takeKValid, countValid]
  | cons c cs ih =>
    by_cases hv : isValidChar c
    · by_cases hk1 : k ≤ 1
      · simp only [takeKValid, hv, hk1, if_pos]
        rw [countValid_cons_valid c [] hv]
        simp [countValid]
        omega
      · simp only [takeKValid, hv, hk1, if_pos, if_neg, not_false_iff]
        rw [countValid_cons_valid c _ hv]
        have := ih (k - 1) (by omega)
        omega
    · simp only [takeKValid, hv, Bool.false_eq_true, if_neg, not_false_iff]
      rw [countValid_cons_invalid c _ hv]
      exact ih k hk

theorem countValid_reverse (l : List Nat) :
    countValid l.reverse = countValid l := by
  simp [countValid, List.filter_reverse]

theorem lowerChar_lower (c : Nat) (h : isEnglish c = true) :
    isEnglishLower (lowerChar c) = true := by
  unfold lowerChar
  by_cases hu : isEnglishUpper c = true
  · simp only [hu, if_pos]
    simp only [isEnglishUpper, Bool.and_eq_true, decide_eq_true_eq] at hu
    simp only [isEnglishLower, Bool.and_eq_true, decide_eq_true_eq]
    constructor <;> [skip; skip] <;> omega
  · simp only [hu, if_neg, not_false_iff]
    simp only [isEnglish, Bool.or_eq_true] at h
    rcases h with h | h
    · exact h
    · exact absurd h hu

theorem cleanTextGo_valid (fuel : Nat) (l : List Nat) :
    ∀ c ∈ cleanTextGo fuel l, validOutChar c := by
  induction fuel generalizing l with
  | zero => simp [cleanTextGo]
  | succ n ih =>
    match l with
    | [] => simp [cleanTextGo]
    | c :: cs =>
      intro x hx
      by_cases he : isEnglish c = true
      · simp only [cleanTextGo, he, if_pos] at hx
        by_cases hn : nextEngDigit ((spanP isEnglish (c :: cs)).2.dropWhile pySpace) = true
        · simp only [hn, if_pos, List.mem_append, List.mem_cons, List.mem_map] at hx
          rcases hx with ⟨y, hy, rfl⟩ | hx
          · exact Or.inr (Or.inl (lowerChar_lower y (spanP_fst_all _ _ y hy)))
          · rcases hx with rfl | hx
            · exact Or.inr (Or.inr (Or.inr rfl))
            · exact ih _ x hx
        · simp only [hn, Bool.false_eq_true, if_neg, not_false_iff,
            List.mem_append, List.mem_map] at hx
          rcases hx with ⟨y, hy, rfl⟩ | hx
          · exact Or.inr (Or.inl (lowerChar_lower y (spanP_fst_all _ _ y hy)))
          · exact ih _ x hx
      · by_cases hd : isDigit c = true
        · simp only [cleanTextGo, he, hd, Bool.false_eq_true, if_neg,
            not_false_iff, if_pos] at hx
          by_cases hn : nextEngDigit
              ((dotDigits (spanP isDigit (c :: cs)).2.length
                (spanP isDigit (c :: cs)).2).2.dropWhile pySpace) = true
          · simp only [hn, if_pos, List.mem_append, List.mem_cons] at hx
            rcases hx with (hx | hx) | hx
            · exact Or.inr (Or.inr (Or.inl (spanP_fst_all _ _ x hx)))
            · exact Or.inr (Or.inr (Or.inl (dotDigits_fst_all _ _ x hx)))
            · rcases hx with rfl | hx
              · exact Or.inr (Or.inr (Or.inr rfl))
              · exact ih _ x hx
          · simp only [hn, Bool.false_eq_true, if_neg, not_false_iff,
              List.mem_append] at hx
            rcases hx with (hx | hx) | hx
            · exact Or.inr (Or.inr (Or.inl (spanP_fst_all _ _ x hx)))
            · exact Or.inr (Or.inr (Or.inl (dotDigits_fst_all _ _ x hx)))
            · exact ih _ x hx
        · by_cases hc : isChinese c = true
          · simp only [cleanTextGo, he, hd, hc, Bool.false_eq_true, if_neg,
              not_false_iff, if_pos, List.mem_cons] at hx
            rcases hx with rfl | hx
            · exact Or.inl hc
            · exact ih _ x hx
          · simp only [cleanTextGo, he, hd, hc, Bool.false_eq_true, if_neg,
              not_false_iff] at hx
            exact ih _ x hx

theorem mem_of_mem_rstripSpaces (l : List Nat) (c : Nat)
    (h : c ∈ rstripSpaces l) : c ∈ l := by
  unfold rstripSpaces at h
  rw [List.mem_reverse] at h
  have := (List.dropWhile_sublist (l := l.reverse) (p := fun c => c == 32)).mem h
  rwa [List.mem_reverse] at this

/-- Claim **C3, counterexample.**  The claim says `clean_text` contains only
codepoints in U+4E00–U+9FFF, a–z and 0–9; but the cleaner also emits an
ASCII space as a separator between adjacent Latin/digit runs:
`clean_text("Hello World") = "hello world"` contains U+0020. -/
theorem c3_counterexample :
    cleanText (cps "Hello World") = cps "hello world" ∧
    (32 : Nat) ∈ cleanText (cps "Hello World") ∧
    ¬ (isChinese 32 = true ∨ isEnglishLower 32 = true ∨ isDigit 32 = true) := by
  refine ⟨by decide, by decide, by decide⟩

/-- Claim **C3, amended.**  For every paragraph built from any input, every
codepoint of `clean_text` is in U+4E00–U+9FFF, a–z, 0–9 **or is an ASCII
space separator**; uppercase ASCII is lower-cased, digits are kept
verbatim, a decimal point between digits is dropped (`"3.14"` cleans to
`"314"`), and every other codepoint is dropped. -/
theorem c3_amended :
    (∀ (l : List Nat), ∀ c ∈ cleanText l, validOutChar c) ∧
    cleanText (cps "3.14") = cps "314" := by
  constructor
  · intro l c hc
    exact cleanTextGo_valid l.length l c (mem_of_mem_rstripSpaces _ c hc)
  · decide

/-- Witness for `c3_amended` at a concrete input. -/
theorem c3_amended_witness :
    (104 : Nat) ∈ cleanText (cps "Hi") ∧ validOutChar 104 :=
  ⟨by decide, c3_amended.1 (cps "Hi") 104 (by decide)⟩

/-- Claim **C4 (confirmed).**  Scenario 1: raw `"Python 3.14 is great"` with
window 2 cleans to `"python 314 is great"`, tokenizes to kinds
[english, number, english, english] (the spec's Latin/Digit/Latin/Latin),
and yields fragments with match keys `"python314"`, `"314is"`, `"isgreat"`
and display texts `"python 314"`, `"314 is"`, `"is great"`. -/
theorem c4_scenario1 :
    cleanText (cps "Python 3.14 is great") = cps "python 314 is great" ∧
    (tokenize (cps "python 314 is great")).map Token.kind =
      [TokKind.english, TokKind.number, TokKind.english, TokKind.english] ∧
    (generateFromParagraphs 2 [cps "python 314 is great"]).map Frag.matchKey =
      [cps "python314", cps "314is", cps "isgreat"] ∧
    (generateFromParagraphs 2 [cps "python 314 is great"]).map Frag.display =
      [cps "python 314", cps "314 is", cps "is great"] := by
  refine ⟨by decide, by decide, by decide, by decide⟩

/-- Claim **C2, counterexample.**  The claim says the scorer early-rejects
whenever the counts of the spec's counting method differ by more than 2.
For the spaceless keys `"一二三四五六七八"` (8 codepoints) and
`"一二三四"` (4 codepoints) the spec's counts differ by 4 > 2, yet the
code splits on whitespace only — both keys count as one word — so no
early reject happens and the scorer returns 2·4/12 = 2/3 ≠ 0. -/
theorem c2_counterexample :
    specTokenCount (cps "一二三四五六七八") = 8 ∧
    specTokenCount (cps "一二三四") = 4 ∧
    calculateSimilarity (cps "一二三四五六七八") (cps "一二三四") = mkRat 2 3 := by
  refine ⟨by decide, by decide, by decide⟩

/-- Claim **C2, amended.**  The early reject counts tokens by Python
`str.split()` alone (a key without whitespace counts as a single token):
the scorer returns 0 without running the matcher whenever the
whitespace-split word counts differ by more than 2 — in particular for an
8-word key against a 4-word key — and, for any positive threshold, no
output match pairs keys whose word counts differ by more than 2. -/
theorem c2_amended :
    (∀ a b : List Nat,
        2 < natDiff (splitWs a).length (splitWs b).length →
        calculateSimilarity a b = 0) ∧
    calculateSimilarity (cps "a b c d e f g h") (cps "a b c d") = 0 ∧
    (∀ (fileA fileB : List SeqInfo) (τ : ℚ) (np : Nat), 0 < τ →
      ∀ m ∈ findSimilarParallel fileA fileB τ np,
        natDiff (splitWs m.seq1.sequence).length
          (splitWs m.seq2.sequence).length ≤ 2) := by
  refine ⟨?_, by decide, ?_⟩
  · intro a b h
    unfold calculateSimilarity
    simp only [h, if_pos]
  · intro fileA fileB τ np hτ m hm
    have hm' : m ∈ removeDuplicates (mergedMatches fileA fileB τ np) :=
      (mem_sortDesc m _).mp hm
    have hm'' : m ∈ mergedMatches fileA fileB τ np :=
      mem_of_mem_dedupByGo matchIdent [] _ m hm'
    rcases mem_mergedMatches fileA fileB τ np m hm'' with ⟨hsim, hge, -, -⟩
    by_contra hc
    have hgt : 2 < natDiff (splitWs m.seq1.sequence).length
        (splitWs m.seq2.sequence).length := by omega
    have h0 : calculateSimilarity m.seq1.sequence m.seq2.sequence = 0 := by
      unfold calculateSimilarity
      simp only [hgt, if_pos]
    rw [hsim, h0] at hge
    exact absurd (lt_of_lt_of_le hτ hge) (lt_irrefl 0)

/-- Witness for `c2_amended` at concrete inputs. -/
theorem c2_amended_witness :
    (2 < natDiff (splitWs (cps "a b c d e f")).length
        (splitWs (cps "a b")).length ∧
      calculateSimilarity (cps "a b c d e f") (cps "a b") = 0) ∧
    ((0 : ℚ) < mkRat 3 5 ∧
      (⟨⟨cps "天吃了一个", 2, 0, 2⟩, ⟨cps "天吃了一个", 2, 0, 2⟩, 1⟩ : Match) ∈
        findSimilarParallel s4A s4B (mkRat 3 5) 8 ∧
      natDiff (splitWs (cps "天吃了一个")).length
        (splitWs (cps "天吃了一个")).length ≤ 2) :=
  ⟨⟨by decide, c2_amended.1 (cps "a b c d e f") (cps "a b") (by decide)⟩,
   ⟨by decide, by decide,
    c2_amended.2.2 s4A s4B (mkRat 3 5) 8 (by decide)
      ⟨⟨cps "天吃了一个", 2, 0, 2⟩, ⟨cps "天吃了一个", 2, 0, 2⟩, 1⟩ (by decide)⟩⟩

/-- Claim **C1, counterexample.**  In scenario 4 (A = `"我今天,吃了一个苹果。"`,
B = `"他昨天吃了一个西瓜"`, N = 5, τ = 0.6) the scorer accepts the pair
(`"今天吃了一"`, `"昨天吃了一"`) at 0.8 ≥ τ and both keys are fragments of
their documents, yet the pair is absent from the output: the A fragment
`"今天吃了一"` shares no sketch key with any B fragment, so the pre-filter
gives it no candidates and it is never scored — the sketch-key pre-filter
*does* exclude pairs the scorer would accept. -/
theorem c1_counterexample :
    calculateSimilarity (cps "今天吃了一") (cps "昨天吃了一") = mkRat 4 5 ∧
    mkRat 3 5 ≤ mkRat 4 5 ∧
    cps "今天吃了一" ∈ s4A.map SeqInfo.sequence ∧
    cps "昨天吃了一" ∈ s4B.map SeqInfo.sequence ∧
    (cps "今天吃了一", cps "昨天吃了一") ∉ s4out.map matchIdent := by
  refine ⟨by decide, by decide, by decide, by decide, by decide⟩

/-- Claim **C1, amended.**  In scenario 4 the output does *not* contain the pair
(`"今天吃了一"`, `"昨天吃了一"`) although the scorer would accept it at
0.8: the A fragment has no sketch-bucket candidate in B, so the pre-filter
removes it before scoring (the sketch keys are a real filter on the A
side, not merely a narrowing heuristic).  A fragments that do have a
candidate are scored against every B fragment, e.g. the pair
(`"天吃了一个"`, `"昨天吃了一"`) is accepted at the same score 0.8. -/
theorem c1_amended :
    candidatesOf s4B ⟨cps "今天吃了一", 1, 0, 1⟩ = [] ∧
    (cps "今天吃了一", cps "昨天吃了一") ∉ s4out.map matchIdent ∧
    (s4out.filter (fun m =>
        decide (matchIdent m = (cps "天吃了一个", cps "昨天吃了一")))).map
      Match.similarity = [mkRat 4 5] ∧
    (cps "天吃了一个", cps "天吃了一个") ∈ s4out.map matchIdent := by
  refine ⟨by decide, by decide, by decide, by decide⟩

/-- Claim **C5, counterexample.**  In the scenario-4 output, the matches at
positions 2 and 3 both score 0.8, both have B paragraph id 0, but the
earlier one has B token_start 3 and the later one B token_start 2: the
match with the smaller (B paragraph id, B token_start, …) tuple does
*not* precede.  The code sorts by score only (stable), keeping
first-encountered order, which is A-fragment-major. -/
theorem c5_counterexample :
    (s4out[2]?).map (fun m =>
        (m.seq2.paraIdx, m.seq2.tokenStart, m.seq1.paraIdx, m.seq1.tokenStart,
          m.similarity)) = some (0, 3, 0, 2, mkRat 4 5) ∧
    (s4out[3]?).map (fun m =>
        (m.seq2.paraIdx, m.seq2.tokenStart, m.seq1.paraIdx, m.seq1.tokenStart,
          m.similarity)) = some (0, 2, 0, 3, mkRat 4 5) := by
  refine ⟨by decide, by decide⟩

/-- Claim **C5, amended.**  The final match list is sorted by score descending;
matches with equal scores keep their first-encountered order in the
deduplicated merged worker output (Python's sort is stable) — there is no
(B paragraph id, B token_start, A paragraph id, A token_start) tie-break. -/
theorem c5_amended (fileA fileB : List SeqInfo) (τ : ℚ) (np : Nat) :
    (findSimilarParallel fileA fileB τ np).Pairwise
      (fun u v => v.similarity ≤ u.similarity) ∧
    ∀ q : ℚ,
      (findSimilarParallel fileA fileB τ np).filter
          (fun m => m.similarity == q) =
        (removeDuplicates (mergedMatches fileA fileB τ np)).filter
          (fun m => m.similarity == q) :=
  ⟨sorted_sortDesc _, fun q => filter_sortDesc _ q⟩

/-- Claim **C6 (confirmed).**  After `_remove_duplicates`, any two distinct
surviving matches differ in the key pair
(`sequence1.sequence`, `sequence2.sequence`), and every survivor is the
first element of the input (the merged worker output) bearing its key
pair. -/
theorem c6_dedup (l : List Match) :
    (removeDuplicates l).Pairwise (fun x y => matchIdent x ≠ matchIdent y) ∧
    ∀ m ∈ removeDuplicates l, ∃ l1 l2, l = l1 ++ m :: l2 ∧
      ∀ x ∈ l1, matchIdent x ≠ matchIdent m := by
  constructor
  · exact dedupByGo_pairwise matchIdent [] l
  · intro m hm
    rcases dedupByGo_first matchIdent [] l m hm with ⟨l1, l2, rfl, hall⟩
    refine ⟨l1, l2, rfl, ?_⟩
    intro x hx
    rcases hall x hx with hx' | hx'
    · simp at hx'
    · exact hx'

theorem drop_range'_one (m a n : Nat) :
    (List.range' a n).drop m = List.range' (a + m) (n - m) := by
  induction m generalizing a n with
  | zero => simp
  | succ k ih =>
    match n with
    | 0 => simp
    | j + 1 =>
      rw [List.range'_succ a j 1]
      simp only [List.drop_succ_cons]
      rw [ih (a + 1) j]
      congr 1 <;> omega

/-- Python `l[::s]` on `range' a (n·s)` picks the `n` elements `a, a+s, …`. -/
theorem everyNthGo_range' (s : Nat) (hs : 1 ≤ s) :
    ∀ (n a fuel : Nat), n * s ≤ fuel →
      everyNthGo fuel s (List.range' a (n * s)) =
        (List.range n).map (fun i => a + s * i) := by
  intro n
  induction n with
  | zero => intro a fuel _; simp; cases fuel <;> simp [everyNthGo]
  | succ k ih =>
    intro a fuel hf
    have hpos : 1 ≤ (k + 1) * s := by
      calc 1 ≤ s := hs
      _ ≤ (k + 1) * s := Nat.le_mul_of_pos_left s (by omega)
    match fuel with
    | 0 => omega
    | f + 1 =>
      have hsplit : (k + 1) * s = (k * s + (s - 1)) + 1 := by
        have : (k + 1) * s = k * s + s := by ring
        omega
      rw [hsplit, List.range'_succ]
      simp only [everyNthGo]
      rw [drop_range'_one (s - 1) (a + 1) (k * s + (s - 1))]
      have h1 : k * s + (s - 1) - (s - 1) = k * s := by omega
      have h2 : a + 1 + (s - 1) = a + s := by omega
      rw [h1, h2, ih (a + s) f (by omega)]
      rw [List.range_succ_eq_map]
      simp only [List.map_cons, List.map_map, Nat.mul_zero, Nat.add_zero,
        List.cons.injEq]
      refine ⟨trivial, List.map_congr_left ?_⟩
      intro i _
      simp only [Function.comp_apply, Nat.succ_eq_add_one]
      ring

/-- Claim **C7, counterexample.**  The web pipeline stage
(`SequenceGenerationStage.process`) caps a 10000-fragment document at
M = 2500 by *truncation*: the survivors are the fragments at original
indices 0..2499, not the claimed uniform-stride indices 0, 4, 8, …, 9996. -/
theorem c7_counterexample :
    capWeb 2500 (List.range 10000) = List.range 2500 ∧
    List.range 2500 ≠ (List.range 2500).map (fun i => 4 * i) ∧
    capWeb 2500 (List.range 10000) ≠ (List.range 2500).map (fun i => 4 * i) := by
  have hweb : capWeb 2500 (List.range 10000) = List.range 2500 := by
    unfold capWeb
    rw [if_pos (by norm_num [List.length_range])]
    rw [List.take_range]
    norm_num
  have hne : List.range 2500 ≠ (List.range 2500).map (fun i => 4 * i) := by
    intro h
    have ha : (List.range 2500)[1]? = some 1 := List.getElem?_range (by norm_num)
    have hb : ((List.range 2500).map (fun i => 4 * i))[1]? = some 4 := by
      rw [List.getElem?_map, ha]
      rfl
    rw [h] at ha
    rw [hb] at ha
    simp at ha
  exact ⟨hweb, hne, by rw [hweb]; exact hne⟩

/-- Claim **C7, amended.**  The CLI detector
(`process_pdf_with_limit`) subsamples with the uniform stride
`total // M` and truncates to `M`: for a 10000-fragment document and
M = 2500 the stride is 4 and exactly the fragments at original indices
0, 4, 8, …, 9996 survive.  The web pipeline stage instead keeps the first
M fragments.  Both caps preserve order: the survivors are a (strictly
increasing) subsequence of the original list. -/
theorem c7_amended :
    capDetector 2500 (List.range 10000) =
      (List.range 2500).map (fun i => 4 * i) ∧
    capWeb 2500 (List.range 10000) = List.range 2500 ∧
    (∀ (M : Nat) (l : List Nat), (capDetector M l).Sublist l) ∧
    (∀ (M : Nat) (l : List Nat), (capWeb M l).Sublist l) := by
  refine ⟨?_, ?_, fun M l => capDetector_sublist M l, fun M l => capWeb_sublist M l⟩
  · unfold capDetector
    rw [if_pos (by norm_num [List.length_range])]
    unfold everyNth
    have h1 : (List.range 10000).length = 10000 := by simp
    have h3 : List.range 10000 = List.range' 0 (2500 * 4) := by
      rw [List.range_eq_range']
    have h2 : (10000 : Nat) / 2500 = 4 := by norm_num
    rw [h1, h2, h3, everyNthGo_range' 4 (by norm_num) 2500 0 10000 (by norm_num)]
    rw [List.take_of_length_le (by simp)]
    refine List.map_congr_left ?_
    intro i _
    omega
  · unfold capWeb
    rw [if_pos (by norm_num [List.length_range])]
    rw [List.take_range]
    norm_num

/-- Claim **C8 (confirmed).**  For every reported match whose fragment can be
located in its owning paragraph's clean text
(`clean.find(matched) != -1`), concatenating the before-context, the
raw-text span of the match and the after-context yields a contiguous
substring of the paragraph's `raw_text`; each context window contains at
most the caller-supplied `K ≥ 1` valid codepoints (invalid codepoints are
included verbatim and do not count).  The algorithm is
`similarity_service._extract_context_from_paragraph`, identical to
`DocumentProcessor.get_context_from_paragraph`. -/
theorem c8_context (p : Paragraph) (matched : List Nat) (k : Nat)
    (hf : (pythonFind p.clean matched).isSome) (hk : 1 ≤ k) :
    (∃ u v, u ++ ((extractContext p matched k).1 ++ rawMatchSpan p matched ++
        (extractContext p matched k).2) ++ v = p.raw) ∧
    countValid (extractContext p matched k).1 ≤ k ∧
    countValid (extractContext p matched k).2 ≤ k := by
  cases hpf : pythonFind p.clean matched with
  | none =>
    rw [hpf] at hf
    simp at hf
  | some mp =>
    have hctx : extractContext p matched k =
        ((takeKValid k ((p.raw.take (rawPosOf mp p.raw)).reverse)).reverse,
         takeKValid k (p.raw.drop (rawPosOf mp p.raw +
           matchSpanLen matched.length (p.raw.drop (rawPosOf mp p.raw))))) := by
      unfold extractContext
      rw [hpf]
    have hspan : rawMatchSpan p matched =
        (p.raw.drop (rawPosOf mp p.raw)).take
          (matchSpanLen matched.length (p.raw.drop (rawPosOf mp p.raw))) := by
      unfold rawMatchSpan
      rw [hpf]
    rw [hctx, hspan]
    refine ⟨?_, ?_, ?_⟩
    · rcases takeKValid_append k ((p.raw.take (rawPosOf mp p.raw)).reverse)
        with ⟨t, ht⟩
      rcases takeKValid_append k (p.raw.drop (rawPosOf mp p.raw +
          matchSpanLen matched.length (p.raw.drop (rawPosOf mp p.raw))))
        with ⟨t2, ht2⟩
      refine ⟨t.reverse, t2, ?_⟩
      have hbefore : t.reverse ++
          (takeKValid k ((p.raw.take (rawPosOf mp p.raw)).reverse)).reverse =
          p.raw.take (rawPosOf mp p.raw) := by
        have h := congrArg List.reverse ht
        simpa [List.reverse_append] using h
      have hdrop : (p.raw.drop (rawPosOf mp p.raw)).drop
          (matchSpanLen matched.length (p.raw.drop (rawPosOf mp p.raw))) =
          p.raw.drop (rawPosOf mp p.raw +
            matchSpanLen matched.length (p.raw.drop (rawPosOf mp p.raw))) :=
        List.drop_drop _ _ _
      have hmidafter :
          (p.raw.drop (rawPosOf mp p.raw)).take
              (matchSpanLen matched.length (p.raw.drop (rawPosOf mp p.raw))) ++
            (takeKValid k (p.raw.drop (rawPosOf mp p.raw +
              matchSpanLen matched.length
                (p.raw.drop (rawPosOf mp p.raw)))) ++ t2) =
            p.raw.drop (rawPosOf mp p.raw) := by
        rw [ht2, ← hdrop]
        exact List.take_append_drop _ _
      calc t.reverse ++
            ((takeKValid k ((p.raw.take (rawPosOf mp p.raw)).reverse)).reverse ++
              (p.raw.drop (rawPosOf mp p.raw)).take
                (matchSpanLen matched.length (p.raw.drop (rawPosOf mp p.raw))) ++
              takeKValid k (p.raw.drop (rawPosOf mp p.raw +
                matchSpanLen matched.length
                  (p.raw.drop (rawPosOf mp p.raw))))) ++ t2
          = (t.reverse ++
              (takeKValid k ((p.raw.take (rawPosOf mp p.raw)).reverse)).reverse) ++
            ((p.raw.drop (rawPosOf mp p.raw)).take
                (matchSpanLen matched.length (p.raw.drop (rawPosOf mp p.raw))) ++
              (takeKValid k (p.raw.drop (rawPosOf mp p.raw +
                matchSpanLen matched.length
                  (p.raw.drop (rawPosOf mp p.raw)))) ++ t2)) := by
            simp [List.append_assoc]
        _ = p.raw.take (rawPosOf mp p.raw) ++ p.raw.drop (rawPosOf mp p.raw) := by
            rw [hbefore, hmidafter]
        _ = p.raw := List.take_append_drop _ _
    · rw [countValid_reverse]
      exact countValid_takeKValid k hk _
    · exact countValid_takeKValid k hk _

/-- Witness for `c8_context` at a concrete paragraph, match and K = 3. -/
theorem c8_context_witness :
    (pythonFind c8para.clean (cps "今天吃了一")).isSome ∧ 1 ≤ 3 ∧
    ((∃ u v, u ++ ((extractContext c8para (cps "今天吃了一") 3).1 ++
        rawMatchSpan c8para (cps "今天吃了一") ++
        (extractContext c8para (cps "今天吃了一") 3).2) ++ v = c8para.raw) ∧
      countValid (extractContext c8para (cps "今天吃了一") 3).1 ≤ 3 ∧
      countValid (extractContext c8para (cps "今天吃了一") 3).2 ≤ 3) :=
  ⟨by decide, by decide,
   c8_context c8para (cps "今天吃了一") 3 (by decide) (by decide)⟩

/-- Claim **C9, counterexample.**  The claim says a fragment whose cleaned key
is shorter than 4 codepoints never appears in any reported match.  In the
character-path scenario (A = `"天吃了一个"`, B = `"天吃了一，天吃了"`,
N = 4, τ = 0.6), the B fragment with key `"吃了一"` (3 codepoints) is in
no bucket, yet it appears as the B side of a reported match: workers
compare each batched A fragment against *every* B fragment, so only the
A side is really filtered. -/
theorem c9_counterexample :
    cps "吃了一" ∈ s9B.map SeqInfo.sequence ∧
    (cps "吃了一").length < 4 ∧
    bucketKeys (cps "吃了一") = [] ∧
    cps "吃了一" ∈ s9out.map (fun m => m.seq2.sequence) := by
  refine ⟨by decide, by decide, by decide, by decide⟩

/-- Claim **C9, amended.**  A fragment whose cleaned key is shorter than 4
codepoints is inserted under no bucket key and generates no candidate
hashes, so it never appears as the *file-1* side of any reported match
(windows whose cleaned key is shorter than 3 codepoints are not generated
at all); a file-2 fragment with a short key can still appear in matches,
because workers score batched A fragments against every B fragment. -/
theorem c9_amended :
    (∀ s : List Nat, s.length < 4 →
        bucketKeys s = [] ∧ candidateKeys s = []) ∧
    (∀ (n : Nat) (chars : List Nat) (s : SeqInfo),
        s ∈ generateSequencesChars n chars → 3 ≤ s.sequence.length) ∧
    (∀ (fileA fileB : List SeqInfo) (τ : ℚ) (np : Nat),
        ∀ m ∈ findSimilarParallel fileA fileB τ np,
          4 ≤ m.seq1.sequence.length) := by
  refine ⟨?_, ?_, ?_⟩
  · intro s h
    have hb := bucketKeys_eq_nil_of_short s h
    refine ⟨hb, ?_⟩
    unfold candidateKeys
    rw [hb]
    rfl
  · intro n chars s hs
    unfold generateSequencesChars at hs
    by_cases hlen : chars.length < n
    · simp [hlen] at hs
    · simp only [hlen, if_neg, not_false_iff] at hs
      rcases List.mem_filterMap.mp hs with ⟨i, _, hsome⟩
      by_cases hcl :
          (cleanSeq (List.intersperse 32 ((chars.drop i).take n))).length < 3
      · simp only [hcl, if_pos] at hsome
        cases hsome
      · simp only [hcl, if_neg, not_false_iff, Option.some.injEq] at hsome
        rw [← hsome]
        exact le_of_not_lt hcl
  · intro fileA fileB τ np m hm
    have hm' : m ∈ mergedMatches fileA fileB τ np :=
      mem_of_mem_dedupByGo matchIdent [] _ m ((mem_sortDesc m _).mp hm)
    rcases mem_mergedMatches fileA fileB τ np m hm' with ⟨-, -, -, pr, hpr, hfst⟩
    rcases mem_candidatePairs fileA fileB pr hpr with ⟨-, hb⟩
    have hcand : candidatesOf fileB pr.1 ≠ [] := List.ne_nil_of_mem hb
    have hkeys : candidateKeys pr.1.sequence ≠ [] := by
      intro hc
      exact hcand (candidatesOf_eq_nil_of_keys fileB pr.1 hc)
    have hbk : bucketKeys pr.1.sequence ≠ [] := by
      intro hc
      apply hkeys
      unfold candidateKeys
      rw [hc]
      rfl
    have hlen := length_ge_of_bucketKeys_ne_nil _ hbk
    rw [← hfst]
    exact hlen

/-- Witness for `c9_amended` at concrete inputs. -/
theorem c9_amended_witness :
    (bucketKeys (cps "吃了一") = [] ∧ candidateKeys (cps "吃了一") = []) ∧
    3 ≤ (SeqInfo.mk (cps "吃了一") 1 0 1).sequence.length ∧
    4 ≤ (Match.mk ⟨cps "天吃了一", 0, 0, 0⟩
        ⟨cps "天吃了一", 0, 0, 0⟩ 1).seq1.sequence.length :=
  ⟨c9_amended.1 (cps "吃了一") (by decide),
   c9_amended.2.1 4 (cps "天吃了一，天吃了") ⟨cps "吃了一", 1, 0, 1⟩ (by decide),
   c9_amended.2.2 s9A s9B (mkRat 3 5) 8
     ⟨⟨cps "天吃了一", 0, 0, 0⟩, ⟨cps "天吃了一", 0, 0, 0⟩, 1⟩ (by decide)⟩

/-- Claim **C10, counterexample.**  In the duplicated-key scenario
(A = `"天吃了一"`, B = `"天吃了一天吃了一"`, N = 4, τ = 0.9) the A
fragment is batched (its candidate list is non-empty) and the B fragment
at token_start 4 scores 1 ≥ τ against it, yet no output match references
that B fragment: deduplication on (key A, key B) keeps only the first of
the two pairs, so the output does *not* contain every pair with ratio
≥ τ. -/
theorem c10_counterexample :
    (⟨cps "天吃了一", 4, 0, 4⟩ : SeqInfo) ∈ s10B ∧
    calculateSimilarity (cps "天吃了一") (cps "天吃了一") = 1 ∧
    mkRat 9 10 ≤ (1 : ℚ) ∧
    s10a ∈ s10A ∧
    candidatesOf s10B s10a ≠ [] ∧
    4 ∉ s10out.map (fun m => m.seq2.tokenStart) := by
  refine ⟨by decide, by decide, by decide, by decide, by decide, by decide⟩

/-- Claim **C10, amended.**  Workers score every batched A fragment against
every fragment of document B.  Consequently every output match scores at
least τ with the scorer's own value on its keys (no pair with ratio < τ
survives), and for every batched A fragment and every B fragment whose
ratio reaches τ, the output contains a match bearing exactly that key
pair and score — one representative per key pair, the first encountered,
because deduplication keys on (key A, key B). -/
theorem c10_amended (fileA fileB : List SeqInfo) (τ : ℚ) (np : Nat) :
    (∀ m ∈ findSimilarParallel fileA fileB τ np,
        τ ≤ m.similarity ∧
        m.similarity = calculateSimilarity m.seq1.sequence m.seq2.sequence) ∧
    (∀ a ∈ fileA, candidatesOf fileB a ≠ [] → ∀ b ∈ fileB,
        τ ≤ calculateSimilarity a.sequence b.sequence →
        ∃ m ∈ findSimilarParallel fileA fileB τ np,
          m.seq1.sequence = a.sequence ∧ m.seq2.sequence = b.sequence ∧
          m.similarity = calculateSimilarity a.sequence b.sequence) := by
  constructor
  · intro m hm
    have hm' : m ∈ mergedMatches fileA fileB τ np :=
      mem_of_mem_dedupByGo matchIdent [] _ m ((mem_sortDesc m _).mp hm)
    rcases mem_mergedMatches fileA fileB τ np m hm' with ⟨hsim, hge, -, -⟩
    exact ⟨hge, hsim⟩
  · intro a ha hcand b hb hτ
    have hmem := mem_merged_of_candidate fileA fileB τ np a ha hcand b hb hτ
    rcases exists_mem_dedupByGo matchIdent []
      (mergedMatches fileA fileB τ np) _ hmem (by simp) with ⟨m', hm', hid⟩
    have hout : m' ∈ findSimilarParallel fileA fileB τ np :=
      (mem_sortDesc m' _).mpr hm'
    have hm3 : m' ∈ mergedMatches fileA fileB τ np :=
      mem_of_mem_dedupByGo matchIdent [] _ m' hm'
    rcases mem_mergedMatches fileA fileB τ np m' hm3 with ⟨hsim', -, -, -⟩
    have hid1 : m'.seq1.sequence = a.sequence := congrArg Prod.fst hid
    have hid2 : m'.seq2.sequence = b.sequence := congrArg Prod.snd hid
    refine ⟨m', hout, hid1, hid2, ?_⟩
    rw [hsim', hid1, hid2]

/-- Witness for `c10_amended` at the duplicated-key scenario. -/
theorem c10_amended_witness :
    (mkRat 9 10 ≤ s10match.similarity ∧
      s10match.similarity =
        calculateSimilarity s10match.seq1.sequence s10match.seq2.sequence) ∧
    (∃ m ∈ findSimilarParallel s10A s10B (mkRat 9 10) 8,
        m.seq1.sequence = s10a.sequence ∧
        m.seq2.sequence = (⟨cps "天吃了一", 0, 0, 0⟩ : SeqInfo).sequence ∧
        m.similarity = calculateSimilarity s10a.sequence
          (⟨cps "天吃了一", 0, 0, 0⟩ : SeqInfo).sequence) :=
  ⟨(c10_amended s10A s10B (mkRat 9 10) 8).1 s10match (by decide),
   (c10_amended s10A s10B (mkRat 9 10) 8).2 s10a (by decide) (by decide)
     ⟨cps "天吃了一", 0, 0, 0⟩ (by decide) (by decide)⟩

/-- Witness for `c6_dedup` at a concrete input with a key collision. -/
theorem c6_dedup_witness :
    (removeDuplicates c6input).Pairwise
      (fun x y => matchIdent x ≠ matchIdent y) ∧
    ∃ l1 l2, c6input = l1 ++
        (⟨⟨cps "吃了一天", 1, 0, 1⟩, ⟨cps "天吃了一", 0, 0, 0⟩, mkRat 3 4⟩ : Match) :: l2 ∧
      ∀ x ∈ l1, matchIdent x ≠
        matchIdent (⟨⟨cps "吃了一天", 1, 0, 1⟩, ⟨cps "天吃了一", 0, 0, 0⟩, mkRat 3 4⟩ : Match) :=
  ⟨(c6_dedup c6input).1, (c6_dedup c6input).2 _ (by decide)⟩

end PdfDetect

